import Mathlib

/-!
Shallow embedding of the Monte Carlo race simulation (`race.py`).

Python floats are modelled as rationals (`ℚ`); `np.nan` (the time of a
DNF result) is modelled by `Option ℚ` being `none`.

The global `np.random` generator is modelled as a pointer into a pair of
tapes: `u` holds the values produced by `np.random.rand()` (always in
`[0,1)`, enforced by a subtype) and `z` holds the standard normal deviates
underlying `np.random.normal(mu, sigma) = mu + sigma * z`.  Every draw
advances the single shared pointer by one, matching the fixed consumption
order of the source: crash draw, speed draw, weather draw, then a
pit-duration draw on pit laps, per competitor per lap, competitors in
list order, trials back to back.

Python exceptions that can escape `MonteCarloRace.run` (the
`ZeroDivisionError` raised while computing `100 * wins / n_iter` for the
first summary row when `n_iter = 0`, and the `KeyError` raised by
`pandas.DataFrame.sort_values` when the frame built from an empty summary
list has no `Win %` column) are modelled with `Except RunError`.

`DataFrame.sort_values("Win %", ascending=False)` is modelled by pandas'
`nargsort` (no `Win %` value is ever NaN here, so the NaN mask steps are
identity): reverse the key column, take numpy's `argsort` with the default
`kind='quicksort'`, map the resulting positions through the reversed index
and reverse.  The `argsort` itself is numpy's portable introsort
(`npysort/quicksort.c.src`, `aquicksort`): median-of-three quicksort
partitioning for segments longer than `SMALL_QUICKSORT = 15` elements with
an explicit stack and a `2 * msb(n)` depth limit falling back to
`aheapsort`, and an insertion sort for the short segments.  The partition
swaps equal keys (already its unconditional pivot swap displaces a tied
row), so the sort is unstable once at least 17 rows are sorted; only the
sub-17 insertion-sort path keeps tied rows in input order.
-/

/-- Value produced by `np.random.rand()`: a rational in `[0, 1)`. -/
def UnitQ : Type := {q : ℚ // 0 ≤ q ∧ q < 1}

/-- The state of the shared `np.random` generator, as two tapes indexed by
one pointer: `u n` is the uniform value delivered if the `n`-th draw is a
`rand()` call, `z n` the standard normal deviate if it is a `normal` call. -/
structure RandStream where
  u : ℕ → UnitQ
  z : ℕ → ℚ

/-- Model of `np.random.rand()` at pointer position `p`. -/
def randAt (s : RandStream) (p : ℕ) : ℚ := (s.u p).val

/-- Model of `np.random.normal(mu, sigma)` at pointer position `p`. -/
def normalAt (mu sigma : ℚ) (s : RandStream) (p : ℕ) : ℚ := mu + sigma * s.z p

/-- The `Car` dataclass: a single competitor with strategy parameters. -/
structure Car where
  name : String
  base_speed : ℚ
  speed_std : ℚ
  crash_prob : ℚ
  pit_mean : ℚ
  pit_std : ℚ
  pit_laps : List ℕ
  tyre_decay : ℚ
  boost_laps : List ℕ
  boost_speed : ℚ
  boost_crash : ℚ
deriving DecidableEq

/-- The `Track` dataclass: the circuit model. -/
structure Track where
  lap_length : ℚ
  n_laps : ℕ
  weather_variance : ℚ
deriving DecidableEq

/-- Race status of one car: the string `"Finished"` or `f"DNF on lap {lap}"`. -/
inductive Status where
  | finished : Status
  | dnf (lap : ℕ) : Status
deriving DecidableEq

/-- State returned by the per-car lap loop of `RaceSimulator.run`: the final
`status`, the accumulated `total_time`, the generator pointer after the loop,
and the final `last_pit_lap` loop variable. -/
structure LoopRes where
  status : Status
  total_time : ℚ
  ptr : ℕ
  last_pit : ℕ
deriving DecidableEq

/-- One entry of the result dict of `RaceSimulator.run`:
`{"time": ..., "status": ..., "laps": ...}` (with `none` for `np.nan`). -/
structure CarResult where
  time : Option ℚ
  status : Status
  laps : ℕ
deriving DecidableEq

/-- The `laps_since_pit = lap - last_pit_lap - 1` computation (Python ints). -/
def lapsSincePit (lap last_pit : ℕ) : ℤ := (lap : ℤ) - (last_pit : ℤ) - 1

/-- The `tyre_penalty = car.base_speed * car.tyre_decay * laps_since_pit`
computation. -/
def tyrePenalty (car : Car) (lap last_pit : ℕ) : ℚ :=
  car.base_speed * car.tyre_decay * ((lapsSincePit lap last_pit : ℤ) : ℚ)

/-- Crash probability for one lap:
`car.crash_prob` plus `car.boost_crash` on boost laps. -/
def lapCrashProb (car : Car) (lap : ℕ) : ℚ :=
  car.crash_prob + (if lap ∈ car.boost_laps then car.boost_crash else 0)

/-- The raw speed drawn for one lap, before the safety clamp: a normal draw
around `base_speed`, minus tyre penalty, plus boost, plus a weather draw.
The speed draw sits at pointer `p`, the weather draw at `p + 1`. -/
def rawSpeed (car : Car) (track : Track) (lap last_pit : ℕ)
    (s : RandStream) (p : ℕ) : ℚ :=
  normalAt car.base_speed car.speed_std s p
    - tyrePenalty car lap last_pit
    + (if lap ∈ car.boost_laps then car.boost_speed else 0)
    + normalAt 0 track.weather_variance s (p + 1)

/-- The effective speed after the safety clamp `speed = max(speed, 1e-3)`. -/
def effectiveSpeed (car : Car) (track : Track) (lap last_pit : ℕ)
    (s : RandStream) (p : ℕ) : ℚ :=
  max (rawSpeed car track lap last_pit s p) (1 / 1000)

/-- The `RaceSimulator._pit_stop_time` helper:
`max(np.random.normal(car.pit_mean, car.pit_std), 0)`. -/
def pit_stop_time (car : Car) (s : RandStream) (p : ℕ) : ℚ :=
  max (normalAt car.pit_mean car.pit_std s p) 0

/-- The body of `for lap in range(1, n_laps + 1)` in `RaceSimulator.run`,
as structural recursion over the list of remaining lap numbers.  State:
remaining laps, `last_pit_lap`, `total_time`, generator pointer. -/
def simLoop (car : Car) (track : Track) (s : RandStream) :
    List ℕ → ℕ → ℚ → ℕ → LoopRes
  | [], last_pit, total, p => ⟨Status.finished, total, p, last_pit⟩
  | lap :: rest, last_pit, total, p =>
    if randAt s p < lapCrashProb car lap then
      ⟨Status.dnf lap, total, p + 1, last_pit⟩
    else
      let lap_time := track.lap_length / effectiveSpeed car track lap last_pit s (p + 1)
      let total := total + lap_time
      if lap ∈ car.pit_laps then
        simLoop car track s rest lap (total + pit_stop_time car s (p + 3)) (p + 4)
      else
        simLoop car track s rest last_pit total (p + 3)

/-- The full per-car simulation: the lap loop over laps `1 .. n_laps`,
starting with `total_time = 0` and `last_pit_lap = 0`. -/
def simCar (car : Car) (track : Track) (s : RandStream) (p : ℕ) : LoopRes :=
  simLoop car track s (List.range' 1 track.n_laps) 0 0 p

/-- Packaging of the loop result into the per-car dict entry of
`RaceSimulator.run`: `time` is `np.nan` (`none`) unless finished, `laps` is
the crash lap for a DNF and `track.n_laps` otherwise. -/
def mkResult (track : Track) (r : LoopRes) : CarResult :=
  { time := match r.status with
      | Status.finished => some r.total_time
      | Status.dnf _ => none
    status := r.status
    laps := match r.status with
      | Status.finished => track.n_laps
      | Status.dnf k => k }

/-- The `RaceSimulator.run` method: simulate every car in list order against
the shared generator, returning the name-keyed result entries in insertion
order together with the generator pointer after the race. -/
def RaceSimulator.run (cars : List Car) (track : Track) (s : RandStream)
    (p : ℕ) : List (String × CarResult) × ℕ :=
  match cars with
  | [] => ([], p)
  | c :: rest =>
    let r := simCar c track s p
    let o := RaceSimulator.run rest track s r.ptr
    ((c.name, mkResult track r) :: o.1, o.2)

/-- Accumulators of `MonteCarloRace.run`, the dicts keyed by car name
(`winner_counts`, `podium_counts`, `finish_times`, `dnfs`), modelled as
total functions that are `0` / `[]` outside the tracked names. -/
structure Agg where
  winner_counts : String → ℕ
  podium_counts : String → ℕ
  finish_times : String → List ℚ
  dnfs : String → ℕ

/-- Initial accumulators: every count `0`, every time list empty. -/
def initAgg : Agg := ⟨fun _ => 0, fun _ => 0, fun _ => [], fun _ => 0⟩

/-- Increment of a name-keyed counter dict. -/
def bump (f : String → ℕ) (n : String) : String → ℕ :=
  fun m => if m = n then f n + 1 else f m

/-- Append of a finish time to a name-keyed list dict. -/
def pushTime (f : String → List ℚ) (n : String) (t : ℚ) : String → List ℚ :=
  fun m => if m = n then f n ++ [t] else f m

/-- The `sorted(finished.items(), key=lambda kv: kv[1]["time"])` call:
Python's `sorted` is stable and ascending in the key. -/
def sortedByTime (l : List (String × CarResult)) : List (String × CarResult) :=
  List.insertionSort (fun a b => a.2.time.getD 0 ≤ b.2.time.getD 0) l

/-- The `for n, _ in order[:3]: podium_counts[n] += 1` loop (applied below to
the three first finishers). -/
def podiumFold (l : List (String × CarResult)) (agg : Agg) : Agg :=
  l.foldl (fun a kv => {a with podium_counts := bump a.podium_counts kv.1}) agg

/-- Win and podium accounting of one trial: among finished cars ordered by
ascending time, the first increments its win count and the first three
increment their podium counts; with no finisher nothing is incremented. -/
def winPodium (res : List (String × CarResult)) (agg : Agg) : Agg :=
  let finished := res.filter (fun kv => kv.2.status == Status.finished)
  match sortedByTime finished with
  | [] => agg
  | w :: tl =>
    podiumFold ((w :: tl).take 3)
      {agg with winner_counts := bump agg.winner_counts w.1}

/-- Time and DNF accounting for a single result entry: finished cars append
their time, all others increment their DNF count. -/
def timeDnfStep (agg : Agg) (kv : String × CarResult) : Agg :=
  if kv.2.status = Status.finished then
    {agg with finish_times := pushTime agg.finish_times kv.1 (kv.2.time.getD 0)}
  else
    {agg with dnfs := bump agg.dnfs kv.1}

/-- One iteration of the Monte Carlo loop: run one race, fold win/podium
stats, then time/DNF stats, threading the generator pointer. -/
def trialStep (cars : List Car) (track : Track) (s : RandStream)
    (agg : Agg) (p : ℕ) : Agg × ℕ :=
  let o := RaceSimulator.run cars track s p
  (o.1.foldl timeDnfStep (winPodium o.1 agg), o.2)

/-- The `for i in range(1, n_iter + 1)` Monte Carlo loop. -/
def mcTrials (cars : List Car) (track : Track) (s : RandStream) :
    ℕ → Agg → ℕ → Agg × ℕ
  | 0, agg, p => (agg, p)
  | n + 1, agg, p =>
    let o := trialStep cars track s agg p
    mcTrials cars track s n o.1 o.2

/-- One row of the summary table. -/
structure SummaryRow where
  car : String
  win_pct : ℚ
  podium_pct : ℚ
  dnf_pct : ℚ
  avg_time : Option ℚ
deriving DecidableEq

/-- Exceptions that can escape `MonteCarloRace.run`: the `ZeroDivisionError`
from `100 * winner_counts[name] / n_iter` with `n_iter = 0`, and the
`KeyError` from sorting an empty `DataFrame` on the absent `Win %` column. -/
inductive RunError where
  | zeroDivision
  | keyErrorWinPct
deriving DecidableEq

/-- The summary dict built for car `c` when `n_iter` is not zero:
percentages over `n_iter`, `np.mean` of the collected finish times,
`np.nan` (`none`) when the car never finished. -/
def summaryRowOk (n_iter : ℕ) (agg : Agg) (c : Car) : SummaryRow :=
  { car := c.name
    win_pct := 100 * (agg.winner_counts c.name : ℚ) / (n_iter : ℚ)
    podium_pct := 100 * (agg.podium_counts c.name : ℚ) / (n_iter : ℚ)
    dnf_pct := 100 * (agg.dnfs c.name : ℚ) / (n_iter : ℚ)
    avg_time :=
      if (agg.finish_times c.name).length = 0 then none
      else some ((agg.finish_times c.name).sum / ((agg.finish_times c.name).length : ℚ)) }

/-- Construction of one summary dict for car `c`; raises `ZeroDivisionError`
when `n_iter = 0` (the percentage divisions run before anything is sorted). -/
def summaryRow (n_iter : ℕ) (agg : Agg) (c : Car) : Except RunError SummaryRow :=
  if n_iter = 0 then Except.error RunError.zeroDivision
  else Except.ok (summaryRowOk n_iter agg c)

/-- Entry of numpy's index array `tosort` at position `i` (the argsort
works on indices into the key array; out-of-range reads never happen on
the in-bounds paths and default to `0`). -/
def idxAt (t : List ℕ) (i : ℕ) : ℕ := t.getD i 0

/-- The `INTP_SWAP(*pi, *pj)` of numpy's argsort: exchange two positions of
the index array. -/
def swapAt (t : List ℕ) (i j : ℕ) : List ℕ :=
  (t.set i (idxAt t j)).set j (idxAt t i)

/-- The partition scan `do ++pi; while (v[*pi] < vp);` of `aquicksort`:
advance `pi` past keys strictly below the pivot (fuelled; the pivot copy at
`pr - 1` bounds the scan on the real paths). -/
def scanR (k : ℕ → ℚ) (t : List ℕ) (vp : ℚ) : ℕ → ℕ → ℕ
  | 0, i => i + 1
  | fuel + 1, i =>
    if k (idxAt t (i + 1)) < vp then scanR k t vp fuel (i + 1) else i + 1

/-- The partition scan `do --pj; while (vp < v[*pj]);` of `aquicksort`. -/
def scanL (k : ℕ → ℚ) (t : List ℕ) (vp : ℚ) : ℕ → ℕ → ℕ
  | 0, j => j - 1
  | fuel + 1, j =>
    if vp < k (idxAt t (j - 1)) then scanL k t vp fuel (j - 1) else j - 1

/-- The inner `for (;;)` of the `aquicksort` partition: scan from both ends
and swap out-of-place pairs until the scans cross; returns the updated
index array and the final `pi`. -/
def partLoop (k : ℕ → ℚ) (vp : ℚ) : ℕ → List ℕ → ℕ → ℕ → List ℕ × ℕ
  | 0, t, i, _ => (t, i)
  | fuel + 1, t, i, j =>
    let i2 := scanR k t vp t.length i
    let j2 := scanL k t vp t.length j
    if j2 ≤ i2 then (t, i2)
    else partLoop k vp fuel (swapAt t i2 j2) i2 j2

/-- One `aquicksort` partition of the segment `[pl, pr]`: median-of-three
pivot selection, the unconditional swap of the pivot to `pr - 1`, the scan
loop, and the final swap of the pivot into place; returns the updated index
array and the pivot position `pi`. -/
def partitionSeg (k : ℕ → ℚ) (t : List ℕ) (pl pr : ℕ) : List ℕ × ℕ :=
  let pm := pl + (pr - pl) / 2
  let t := if k (idxAt t pm) < k (idxAt t pl) then swapAt t pm pl else t
  let t := if k (idxAt t pr) < k (idxAt t pm) then swapAt t pr pm else t
  let t := if k (idxAt t pm) < k (idxAt t pl) then swapAt t pm pl else t
  let vp := k (idxAt t pm)
  let t := swapAt t pm (pr - 1)
  let o := partLoop k vp (t.length + 1) t pl (pr - 1)
  (swapAt o.1 o.2 (pr - 1), o.2)

/-- The insertion sort `aquicksort` runs on segments of at most
`SMALL_QUICKSORT = 15` elements: left to right, each index is shifted left
past strictly greater keys, landing after any equal keys — on the sorted
prefix that is an insertion before the first strictly greater element,
written here as a fold of `List.orderedInsert` under the strict key order.
Positions outside `[pl, pr]` are untouched. -/
def insSegment (k : ℕ → ℚ) (t : List ℕ) (pl pr : ℕ) : List ℕ :=
  if pr < pl then t
  else
    t.take pl ++
      ((t.drop pl).take (pr + 1 - pl)).foldl
        (fun acc x => List.orderedInsert (fun i j => k i < k j) x acc) [] ++
      t.drop (pr + 1)

/-- The sift-down loop shared by both phases of numpy's `aheapsort`
(`for (i = l, j = 2l; j <= n;)`): one-based heap positions offset by `off`,
`tmp` the index value being sifted; returns the updated array and the final
`i`. -/
def heapSift (k : ℕ → ℚ) (off n tmp : ℕ) : ℕ → List ℕ → ℕ → ℕ → List ℕ × ℕ
  | 0, t, i, _ => (t, i)
  | fuel + 1, t, i, j =>
    if j ≤ n then
      let j2 := if j < n ∧ k (idxAt t (off + j - 1)) < k (idxAt t (off + j))
                then j + 1 else j
      if k tmp < k (idxAt t (off + j2 - 1)) then
        heapSift k off n tmp fuel
          (t.set (off + i - 1) (idxAt t (off + j2 - 1))) j2 (j2 + j2)
      else (t, i)
    else (t, i)

/-- The heap-building phase of `aheapsort`: `for (l = n >> 1; l > 0; --l)`. -/
def heapBuild (k : ℕ → ℚ) (off n : ℕ) : ℕ → List ℕ → List ℕ
  | 0, t => t
  | l + 1, t =>
    let tmp := idxAt t (off + l)
    let o := heapSift k off n tmp (n + 1) t (l + 1) ((l + 1) * 2)
    heapBuild k off n l (o.1.set (off + o.2 - 1) tmp)

/-- The extraction phase of `aheapsort`: `for (; n > 1;)`. -/
def heapExtract (k : ℕ → ℚ) (off : ℕ) : ℕ → List ℕ → List ℕ
  | 0, t => t
  | 1, t => t
  | n + 2, t =>
    let tmp := idxAt t (off + n + 1)
    let t := t.set (off + n + 1) (idxAt t off)
    let o := heapSift k off (n + 1) tmp (n + 2) t 1 2
    heapExtract k off (n + 1) (o.1.set (off + o.2 - 1) tmp)

/-- numpy's `aheapsort` on the segment of `n` positions starting at `pl`,
the fallback `aquicksort` uses when its depth limit is exhausted. -/
def aheapsortSeg (k : ℕ → ℚ) (t : List ℕ) (pl n : ℕ) : List ℕ :=
  heapExtract k pl n (heapBuild k pl n (n / 2) t)

/-- The driver loop of numpy's `aquicksort` (portable introsort): partition
segments longer than `SMALL_QUICKSORT = 15` (pushing the larger half on the
explicit stack and decrementing the depth budget, with `aheapsort` once the
budget is exhausted), insertion sort the short ones, then pop the stack.
The fuel is an upper bound on the loop iterations, ample at every call. -/
def aqsortLoop (k : ℕ → ℚ) : ℕ → List ℕ → ℕ → ℕ → List (ℕ × ℕ) → ℤ → List ℕ
  | 0, t, _, _, _, _ => t
  | fuel + 1, t, pl, pr, stack, depth =>
    if 15 < pr - pl then
      if depth < 0 then
        let t := aheapsortSeg k t pl (pr - pl + 1)
        match stack with
        | [] => t
        | (pl2, pr2) :: rest => aqsortLoop k fuel t pl2 pr2 rest (depth - 1)
      else
        let o := partitionSeg k t pl pr
        if o.2 - pl < pr - o.2 then
          aqsortLoop k fuel o.1 pl (o.2 - 1) ((o.2 + 1, pr) :: stack) (depth - 1)
        else
          aqsortLoop k fuel o.1 (o.2 + 1) pr ((pl, o.2 - 1) :: stack) (depth - 1)
    else
      let t := insSegment k t pl pr
      match stack with
      | [] => t
      | (pl2, pr2) :: rest => aqsortLoop k fuel t pl2 pr2 rest depth

/-- numpy `argsort` with the default `kind='quicksort'`: introsort over the
index array `[0, ..., n-1]` with depth budget `2 * msb(n)`. -/
def npArgsort (keys : List ℚ) : List ℕ :=
  aqsortLoop (fun i => keys.getD i 0) (2 * keys.length + 4)
    (List.range keys.length) 0 (keys.length - 1) []
    ((2 * Nat.log2 keys.length : ℕ) : ℤ)

/-- pandas `nargsort` for `ascending=False` on a column with no NaN: the
keys and the index row are reversed, the reversed keys are argsorted with
numpy's default quicksort, the positions are mapped through the reversed
index, and the result is reversed. -/
def nargsortDesc (keys : List ℚ) : List ℕ :=
  ((npArgsort keys.reverse).map
      (fun i => (List.range keys.length).reverse.getD i 0)).reverse

/-- Placeholder name for the never-consulted out-of-range row default. -/
def emptyName : String := ""

/-- Out-of-range row default (never consulted: the indexer is a permutation
of the row positions). -/
def dRow : SummaryRow := ⟨emptyName, 0, 0, 0, none⟩

/-- The `.sort_values("Win %", ascending=False)` call on the summary rows:
the rows reordered by the pandas `nargsort` indexer over the `Win %`
column. -/
def sortValuesWinDesc (rows : List SummaryRow) : List SummaryRow :=
  (nargsortDesc (rows.map SummaryRow.win_pct)).map (fun i => rows.getD i dRow)

/-- The `MonteCarloRace.run` method: run `n_iter` races, build one summary
row per car in input order, then sort by descending `Win %`.  With
`n_iter = 0` the row construction raises `ZeroDivisionError`; with no cars
the summary list is empty and the `DataFrame` sort raises `KeyError`. -/
def MonteCarloRace.run (cars : List Car) (track : Track) (n_iter : ℕ)
    (s : RandStream) (p : ℕ) : Except RunError (List SummaryRow) :=
  let agg := (mcTrials cars track s n_iter initAgg p).1
  match cars.mapM (summaryRow n_iter agg) with
  | Except.error e => Except.error e
  | Except.ok rows =>
    if rows.isEmpty then Except.error RunError.keyErrorWinPct
    else Except.ok (sortValuesWinDesc rows)

/-- Name constant for concrete examples. -/
def nmA : String := "A"

/-- Name constant for concrete examples. -/
def nmB : String := "B"

/-- Name constant for concrete examples. -/
def nmX : String := "X"

/-- A car with no stochastic variation and no strategy features: zero crash
probability, zero speed spread, no pits, no tyre decay, no boosts. -/
def constCar (nm : String) (v : ℚ) : Car :=
  { name := nm, base_speed := v, speed_std := 0, crash_prob := 0
    pit_mean := 0, pit_std := 0, pit_laps := [], tyre_decay := 0
    boost_laps := [], boost_speed := 0, boost_crash := 0 }

/-- The single competitor of the crash-probability counterexample, with
crash probability `q` and no other variation. -/
def carCrash (q : ℚ) : Car :=
  { name := nmX, base_speed := 100, speed_std := 0, crash_prob := q
    pit_mean := 0, pit_std := 0, pit_laps := [], tyre_decay := 0
    boost_laps := [], boost_speed := 0, boost_crash := 0 }

/-- A two-lap track with no weather noise. -/
def track2 : Track := ⟨100, 2, 0⟩

/-- A one-lap track with no weather noise. -/
def track1 : Track := ⟨100, 1, 0⟩

/-- A generator whose `rand()` tape is constantly `1/2` and whose normal
deviates are all `0`. -/
def constStream : RandStream := ⟨fun _ => ⟨1 / 2, by norm_num⟩, fun _ => 0⟩

/-- The `rand()` tape of the crash-probability counterexample. -/
def sCrash : RandStream :=
  ⟨fun n =>
    if n = 0 then ⟨2 / 5, by norm_num⟩
    else if n = 9 then ⟨1 / 5, by norm_num⟩
    else if n = 13 then ⟨1 / 5, by norm_num⟩
    else ⟨9 / 10, by norm_num⟩,
   fun _ => 0⟩

/-- A car that crashes on every lap: crash probability `1` exceeds every
`rand()` value. -/
def carSureCrash : Car :=
  { name := nmA, base_speed := 10, speed_std := 0, crash_prob := 1
    pit_mean := 0, pit_std := 0, pit_laps := [], tyre_decay := 0
    boost_laps := [], boost_speed := 0, boost_crash := 0 }

/-- A car whose lap speed genuinely depends on the normal draw it consumes. -/
def carNoisy : Car :=
  { name := nmB, base_speed := 100, speed_std := 1, crash_prob := 0
    pit_mean := 0, pit_std := 0, pit_laps := [], tyre_decay := 0
    boost_laps := [], boost_speed := 0, boost_crash := 0 }

/-- The generator of the evaluation-order counterexample: the normal deviate
at pointer position `2` is `100`, all others `0`. -/
def sOrder : RandStream :=
  ⟨fun _ => ⟨1 / 2, by norm_num⟩, fun n => if n = 2 then 100 else 0⟩

/-- The unsorted summary list of a run: one row per car, in input order,
over the accumulators of `n` trials. -/
def summaryList (cars : List Car) (track : Track) (n : ℕ) (s : RandStream)
    (p : ℕ) : List SummaryRow :=
  cars.map (summaryRowOk n (mcTrials cars track s n initAgg p).1)

/-- Test whether a loop result is a DNF on some lap `≤ k`. -/
def dnfBy (r : LoopRes) (k : ℕ) : Bool :=
  match r.status with
  | Status.dnf j => j ≤ k
  | Status.finished => false

/-- A deterministic car that pits at the end of lap `1`. -/
def pitCar : Car :=
  { name := nmA, base_speed := 100, speed_std := 0, crash_prob := 0
    pit_mean := 5, pit_std := 0, pit_laps := [1], tyre_decay := 1 / 10
    boost_laps := [], boost_speed := 0, boost_crash := 0 }

/-- Seventeen distinct competitor names, one past the largest size
(sixteen) on which numpy's introsort still takes its stable insertion-sort
path. -/
def names17 : List String :=
  ["c00", "c01", "c02", "c03", "c04", "c05", "c06", "c07", "c08",
   "c09", "c10", "c11", "c12", "c13", "c14", "c15", "c16"]

/-- A competitor that crashes on every lap (`crash_prob = 1`): its summary
row always shows `Win % = 0`. -/
def mkCar17 (nm : String) : Car :=
  { name := nm, base_speed := 100, speed_std := 0, crash_prob := 1
    pit_mean := 0, pit_std := 0, pit_laps := [], tyre_decay := 0
    boost_laps := [], boost_speed := 0, boost_crash := 0 }

/-- Seventeen always-crashing competitors: every summary row is tied at
`Win % = 0`. -/
def cars17 : List Car := names17.map mkCar17

/-- The summary row of an always-crashing competitor after one trial. -/
def mk17 (nm : String) : SummaryRow := ⟨nm, 0, 0, 100, none⟩

/-- The name order `sort_values("Win %", ascending=False)` produces on the
seventeen tied rows: numpy's unstable quicksort permutes the tied block, so
the input order `c00, c01, ..., c16` is not preserved. -/
def outNames17 : List String :=
  ["c00", "c09", "c15", "c14", "c13", "c12", "c11", "c10", "c08",
   "c01", "c07", "c06", "c05", "c04", "c03", "c02", "c16"]

/-- Totality of the ascending `win_pct` comparison underlying the summary
sort on small inputs. -/
instance instIsTotalWinAsc :
    IsTotal SummaryRow (fun a b => a.win_pct ≤ b.win_pct) :=
  ⟨fun a b => le_total a.win_pct b.win_pct⟩

/-- Transitivity of the ascending `win_pct` comparison underlying the
summary sort on small inputs. -/
instance instIsTransWinAsc :
    IsTrans SummaryRow (fun a b => a.win_pct ≤ b.win_pct) :=
  ⟨fun _ _ _ h1 h2 => le_trans h1 h2⟩

/-- Evaluation lemma: the time/DNF fold on a finished entry appends the time. -/
theorem timeDnfStep_fin (agg : Agg) (nm : String) (t : ℚ) (l : ℕ) :
    timeDnfStep agg (nm, ⟨some t, Status.finished, l⟩) =
      {agg with finish_times := pushTime agg.finish_times nm t} := by
  simp [timeDnfStep]

/-- Evaluation lemma: the time/DNF fold on a DNF entry increments the DNF
count. -/
theorem timeDnfStep_dnf (agg : Agg) (nm : String) (tm : Option ℚ) (k l : ℕ) :
    timeDnfStep agg (nm, ⟨tm, Status.dnf k, l⟩) =
      {agg with dnfs := bump agg.dnfs nm} := by
  simp [timeDnfStep]

/-- The row builder never raises once `n_iter` is positive: `mapM` returns
exactly the mapped row list. -/
theorem mapM_loop_summaryRow (n : ℕ) (agg : Agg) (hn : n ≠ 0) :
    ∀ (cars : List Car) (acc : List SummaryRow),
      List.mapM.loop (summaryRow n agg) cars acc =
        Except.ok (acc.reverse ++ cars.map (summaryRowOk n agg)) := by
  intro cars
  induction cars with
  | nil => intro acc; simp [List.mapM.loop, pure, Except.pure]
  | cons c cs ih =>
    intro acc
    simp [List.mapM.loop, summaryRow, hn, Bind.bind, Except.bind, ih]

/-- The row builder on a positive trial count, packaged for `List.mapM`. -/
theorem mapM_summaryRow (n : ℕ) (agg : Agg) (hn : n ≠ 0) (cars : List Car) :
    cars.mapM (summaryRow n agg) =
      Except.ok (cars.map (summaryRowOk n agg)) := by
  have h := mapM_loop_summaryRow n agg hn cars []
  simpa [List.mapM] using h

/-- C1.  With a trial count of zero, `MonteCarloRace.run` raises for every
competitor list, circuit and generator state (a `ZeroDivisionError` for a
nonempty list, the empty-frame `KeyError` otherwise), never returning a
table; and the Monte Carlo loop performs no trial at all: the accumulators
and the generator pointer are untouched. -/
theorem C1_zero_trials_error (cars : List Car) (track : Track)
    (s : RandStream) (p : ℕ) :
    (∃ e, MonteCarloRace.run cars track 0 s p = Except.error e) ∧
      mcTrials cars track s 0 initAgg p = (initAgg, p) := by
  refine ⟨?_, rfl⟩
  cases cars with
  | nil =>
    exact ⟨RunError.keyErrorWinPct,
      by simp [MonteCarloRace.run, mcTrials, List.mapM, List.mapM.loop, pure, Except.pure]⟩
  | cons c cs =>
    exact ⟨RunError.zeroDivision,
      by simp [MonteCarloRace.run, mcTrials, List.mapM, List.mapM.loop, summaryRow,
        Bind.bind, Except.bind]⟩

/-- C2, counterexample.  At the concrete input of an empty competitor list,
one trial and an all-`1/2` generator, the aggregator does not return an
empty table: the `DataFrame` sort raises the `Win %` `KeyError`. -/
theorem C2_counterexample :
    MonteCarloRace.run [] track1 1 constStream 0 =
      Except.error RunError.keyErrorWinPct := by
  norm_num [MonteCarloRace.run, mcTrials, trialStep, RaceSimulator.run, winPodium,
    sortedByTime, initAgg, List.mapM, List.mapM.loop, timeDnfStep, pure, Except.pure]

/-- C2, amended.  For every circuit, trial count and generator state,
running the aggregator with an empty competitor list raises the `Win %`
`KeyError` from sorting the column-less empty `DataFrame`; it never returns
the empty table. -/
theorem C2_empty_cars_error (track : Track) (n : ℕ) (s : RandStream) (p : ℕ) :
    MonteCarloRace.run [] track n s p = Except.error RunError.keyErrorWinPct := by
  simp [MonteCarloRace.run, List.mapM, List.mapM.loop, pure, Except.pure]

/-- Commutation of the two insertion styles under one key: inserting `b`
before its equals (non-strict comparison) and `x` after its equals (strict
comparison) can be done in either order. -/
theorem orderedInsert_key_comm {α : Type} (k : α → ℚ) (b x : α) (L : List α) :
    List.orderedInsert (fun i j => k i ≤ k j) b
        (List.orderedInsert (fun i j => k i < k j) x L) =
      List.orderedInsert (fun i j => k i < k j) x
        (List.orderedInsert (fun i j => k i ≤ k j) b L) := by
  induction L with
  | nil =>
    by_cases hbx : k b ≤ k x
    · simp only [List.orderedInsert, if_pos hbx, if_neg (not_lt.mpr hbx)]
    · simp only [List.orderedInsert, if_neg hbx, if_pos (not_le.mp hbx)]
  | cons c L ih =>
    by_cases hxc : k x < k c
    · by_cases hbc : k b ≤ k c
      · by_cases hbx : k b ≤ k x
        · have hxb : ¬ k x < k b := not_lt.mpr hbx
          simp only [List.orderedInsert, if_pos hxc, if_pos hbx, if_pos hbc,
            if_neg hxb]
        · have hxb : k x < k b := not_le.mp hbx
          simp only [List.orderedInsert, if_pos hxc, if_neg hbx, if_pos hbc,
            if_pos hxb]
      · have hbx : ¬ k b ≤ k x := fun h => hbc (le_trans h (le_of_lt hxc))
        simp only [List.orderedInsert, if_pos hxc, if_neg hbx, if_neg hbc]
    · by_cases hbc : k b ≤ k c
      · have hxb : ¬ k x < k b := not_lt.mpr (le_trans hbc (not_lt.mp hxc))
        simp only [List.orderedInsert, if_neg hxc, if_pos hbc, if_neg hxb]
      · simp only [List.orderedInsert, if_neg hxc, if_neg hbc, ih]

/-- Appending one element and re-sorting is a strict-order insertion into
the sorted list: the bridge from numpy's left-to-right insertion sort
(which lands new elements after their equals) to Mathlib's right-fold
`insertionSort`. -/
theorem insertionSort_concat_key {α : Type} (k : α → ℚ) (x : α) (l : List α) :
    List.insertionSort (fun i j => k i ≤ k j) (l ++ [x]) =
      List.orderedInsert (fun i j => k i < k j) x
        (List.insertionSort (fun i j => k i ≤ k j) l) := by
  induction l with
  | nil => rfl
  | cons b l ih =>
    simp only [List.cons_append, List.insertionSort, List.append_eq, ih,
      orderedInsert_key_comm]

/-- The left fold of strict-order insertions — numpy's insertion sort,
which processes keys left to right and shifts each past strictly greater
keys only — equals Mathlib's `insertionSort` under the non-strict key
comparison. -/
theorem foldl_orderedInsert_eq_insertionSort {α : Type} (k : α → ℚ)
    (l : List α) :
    l.foldl (fun acc x => List.orderedInsert (fun i j => k i < k j) x acc) [] =
      List.insertionSort (fun i j => k i ≤ k j) l := by
  induction l using List.reverseRecOn with
  | nil => rfl
  | append_singleton l x ih =>
    rw [List.foldl_append, List.foldl_cons, List.foldl_nil, ih,
      insertionSort_concat_key]

/-- Ordered insertion only consults the relation, so pointwise equivalent
relations insert identically. -/
theorem orderedInsert_rel_congr {α : Type} (r s : α → α → Prop)
    [DecidableRel r] [DecidableRel s] (hrs : ∀ a b, r a b ↔ s a b) (a : α)
    (l : List α) :
    List.orderedInsert r a l = List.orderedInsert s a l := by
  induction l with
  | nil => rfl
  | cons b t ih =>
    by_cases h : r a b
    · simp only [List.orderedInsert, if_pos h, if_pos ((hrs a b).mp h)]
    · simp only [List.orderedInsert, if_neg h,
        if_neg (fun hs => h ((hrs a b).mpr hs)), ih]

/-- Insertion sort only consults the relation, so pointwise equivalent
relations sort identically. -/
theorem insertionSort_rel_congr {α : Type} (r s : α → α → Prop)
    [DecidableRel r] [DecidableRel s] (hrs : ∀ a b, r a b ↔ s a b)
    (l : List α) :
    List.insertionSort r l = List.insertionSort s l := by
  induction l with
  | nil => rfl
  | cons b t ih =>
    simp only [List.insertionSort, ih, orderedInsert_rel_congr r s hrs]

/-- Mapping through an ordered insertion along a key pulled back through
the map. -/
theorem orderedInsert_map_key {α β : Type} (k : β → ℚ) (f : α → β) (a : α)
    (l : List α) :
    (List.orderedInsert (fun i j => k (f i) ≤ k (f j)) a l).map f =
      List.orderedInsert (fun x y => k x ≤ k y) (f a) (l.map f) := by
  induction l with
  | nil => rfl
  | cons b t ih =>
    by_cases h : k (f a) ≤ k (f b)
    · simp only [List.orderedInsert, if_pos h, List.map_cons]
    · simp only [List.orderedInsert, if_neg h, List.map_cons, ih]

/-- Mapping through an insertion sort along a key pulled back through the
map: sorting positions and then dereferencing is sorting the dereferenced
list. -/
theorem insertionSort_map_key {α β : Type} (k : β → ℚ) (f : α → β)
    (l : List α) :
    (List.insertionSort (fun i j => k (f i) ≤ k (f j)) l).map f =
      List.insertionSort (fun x y => k x ≤ k y) (l.map f) := by
  induction l with
  | nil => rfl
  | cons b t ih =>
    simp only [List.insertionSort, List.map_cons, orderedInsert_map_key, ih]

/-- `getD` commutes with `map` when the default is also mapped. -/
theorem map_getD {α β : Type} (f : α → β) (l : List α) (d : α) (i : ℕ) :
    (l.map f).getD i (f d) = f (l.getD i d) := by
  by_cases hi : i < l.length
  · rw [List.getD_eq_getElem _ _ (by simpa using hi),
      List.getD_eq_getElem _ _ hi, List.getElem_map]
  · rw [List.getD_eq_default _ _ (by simpa using not_lt.mp hi),
      List.getD_eq_default _ _ (not_lt.mp hi)]

/-- Dereferencing every position of a list in order rebuilds the list. -/
theorem map_getD_range {α : Type} (l : List α) (d : α) :
    (List.range l.length).map (fun i => l.getD i d) = l := by
  apply List.ext_getElem
  · simp
  · intro i h1 h2
    simp [List.getD, List.getElem?_eq_getElem h2]

/-- Position `i` of the reversed range holds `n - 1 - i`. -/
theorem range_reverse_getD (n i : ℕ) (hi : i < n) :
    (List.range n).reverse.getD i 0 = n - 1 - i := by
  rw [List.getD_eq_getElem _ _ (by simpa using hi), List.getElem_reverse]
  simp

/-- Reading a reversed list is reading the list at the mirrored position. -/
theorem getD_reverse {α : Type} (l : List α) (d : α) (i : ℕ)
    (hi : i < l.length) :
    l.reverse.getD i d = l.getD (l.length - 1 - i) d := by
  have h1 : i < l.reverse.length := by simpa using hi
  have h2 : l.length - 1 - i < l.length := by omega
  rw [List.getD_eq_getElem _ _ h1, List.getD_eq_getElem _ _ h2,
    List.getElem_reverse]

/-- On at most sixteen keys — `SMALL_QUICKSORT + 1` — numpy's introsort
takes its insertion-sort path, so the argsort is the stable ascending
insertion sort of the positions. -/
theorem npArgsort_small (keys : List ℚ) (h : keys.length ≤ 16) :
    npArgsort keys =
      List.insertionSort (fun i j => keys.getD i 0 ≤ keys.getD j 0)
        (List.range keys.length) := by
  have h1 : npArgsort keys =
      aqsortLoop (fun i => keys.getD i 0) (2 * keys.length + 3 + 1)
        (List.range keys.length) 0 (keys.length - 1) []
        ((2 * Nat.log2 keys.length : ℕ) : ℤ) := rfl
  rw [h1]
  simp only [aqsortLoop]
  rw [if_neg (by omega : ¬ 15 < keys.length - 1 - 0)]
  simp only [insSegment]
  rw [if_neg (by omega : ¬ keys.length - 1 < 0)]
  have ht : ((List.range keys.length).drop 0).take (keys.length - 1 + 1 - 0) =
      List.range keys.length := by
    rw [List.drop_zero]
    rcases Nat.eq_zero_or_pos keys.length with h0 | h0
    · simp [h0]
    · have : keys.length - 1 + 1 - 0 = keys.length := by omega
      rw [this, List.take_of_length_le (by simp)]
  have hd : (List.range keys.length).drop (keys.length - 1 + 1) = [] := by
    apply List.drop_eq_nil_of_le
    simp
    omega
  rw [ht, hd, List.take_zero, List.nil_append, List.append_nil]
  exact foldl_orderedInsert_eq_insertionSort (fun i => keys.getD i 0)
    (List.range keys.length)

/-- On at most sixteen rows the whole `sort_values` pipeline — reverse the
keys and positions, argsort stably ascending, dereference, reverse —
collapses to the reversed ascending stable sort of the reversed rows. -/
theorem sortValues_small (rows : List SummaryRow) (h : rows.length ≤ 16) :
    sortValuesWinDesc rows =
      (List.insertionSort (fun a b => a.win_pct ≤ b.win_pct)
        rows.reverse).reverse := by
  have hkl : (rows.map SummaryRow.win_pct).length = rows.length :=
    List.length_map _ _
  have hrl : (rows.map SummaryRow.win_pct).reverse.length = rows.length := by
    simp
  have hkey : ∀ i : ℕ, (rows.map SummaryRow.win_pct).reverse.getD i 0 =
      (rows.reverse.getD i dRow).win_pct := by
    intro i
    rw [← List.map_reverse]
    exact map_getD SummaryRow.win_pct rows.reverse dRow i
  have h2 : npArgsort (rows.map SummaryRow.win_pct).reverse =
      List.insertionSort
        (fun i j => (rows.reverse.getD i dRow).win_pct ≤
          (rows.reverse.getD j dRow).win_pct)
        (List.range rows.length) := by
    rw [npArgsort_small _ (by simpa using h), hrl]
    exact insertionSort_rel_congr _ _
      (fun i j => by rw [hkey i, hkey j]) _
  have h4 : (List.range rows.length).map (fun i => rows.reverse.getD i dRow) =
      rows.reverse := by
    have := map_getD_range rows.reverse dRow
    rwa [List.length_reverse] at this
  have h3 : (List.insertionSort
        (fun i j => (rows.reverse.getD i dRow).win_pct ≤
          (rows.reverse.getD j dRow).win_pct)
        (List.range rows.length)).map (fun i => rows.reverse.getD i dRow) =
      List.insertionSort (fun a b => a.win_pct ≤ b.win_pct) rows.reverse := by
    rw [insertionSort_map_key SummaryRow.win_pct
      (fun i => rows.reverse.getD i dRow) (List.range rows.length), h4]
  show (nargsortDesc (rows.map SummaryRow.win_pct)).map
      (fun i => rows.getD i dRow) = _
  rw [nargsortDesc, List.map_reverse, List.map_map]
  congr 1
  rw [h2, ← h3]
  apply List.map_congr_left
  intro i hi
  have hilt : i < rows.length := by
    have hin : i ∈ List.range rows.length := by
      simpa [List.mem_insertionSort] using hi
    exact List.mem_range.mp hin
  show rows.getD
      ((List.range (rows.map SummaryRow.win_pct).length).reverse.getD i 0)
      dRow = rows.reverse.getD i dRow
  rw [hkl, range_reverse_getD rows.length i hilt, getD_reverse rows dRow i hilt]

/-- Stability of one non-strict ordered insertion: filtering at any
`Win %` value either prepends the inserted row (when it has that value) or
leaves the filter unchanged, so rows of equal `Win %` are never
reordered. -/
theorem filter_orderedInsert_win (a : SummaryRow) (l : List SummaryRow)
    (w : ℚ) :
    (List.orderedInsert (fun x y => x.win_pct ≤ y.win_pct) a l).filter
        (fun r => decide (r.win_pct = w)) =
      if a.win_pct = w then
        a :: l.filter (fun r => decide (r.win_pct = w))
      else l.filter (fun r => decide (r.win_pct = w)) := by
  induction l with
  | nil => by_cases ha : a.win_pct = w <;> simp [ha]
  | cons b t ih =>
    by_cases hab : a.win_pct ≤ b.win_pct
    · have h1 : List.orderedInsert (fun x y => x.win_pct ≤ y.win_pct) a
          (b :: t) = a :: b :: t := by
        simp only [List.orderedInsert]
        rw [if_pos hab]
      rw [h1]
      by_cases ha : a.win_pct = w
      · rw [if_pos ha]
        simp [List.filter_cons, ha]
      · rw [if_neg ha]
        simp [List.filter_cons, ha]
    · have h2 : List.orderedInsert (fun x y => x.win_pct ≤ y.win_pct) a
          (b :: t) =
          b :: List.orderedInsert (fun x y => x.win_pct ≤ y.win_pct) a t := by
        simp only [List.orderedInsert]
        rw [if_neg hab]
      rw [h2]
      have hba : b.win_pct < a.win_pct := not_le.mp hab
      by_cases ha : a.win_pct = w
      · have hb : b.win_pct ≠ w := ne_of_lt (ha ▸ hba)
        rw [if_pos ha]
        simp only [List.filter_cons, ih, if_pos ha]
        simp [hb]
      · rw [if_neg ha]
        simp only [List.filter_cons, ih, if_neg ha]

/-- Stability of the ascending insertion sort: filtering the sorted rows at
any `Win %` value gives exactly the filter of the unsorted rows, in the
same order. -/
theorem filter_insertionSort_win (l : List SummaryRow) (w : ℚ) :
    (List.insertionSort (fun a b => a.win_pct ≤ b.win_pct) l).filter
        (fun r => decide (r.win_pct = w)) =
      l.filter (fun r => decide (r.win_pct = w)) := by
  induction l with
  | nil => rfl
  | cons a t ih =>
    simp only [List.insertionSort, filter_orderedInsert_win, ih,
      List.filter_cons]
    by_cases ha : a.win_pct = w <;> simp [ha]

/-- A one-row table is returned unchanged by the summary sort's indexer. -/
theorem nargsortDesc_singleton (q : ℚ) : nargsortDesc [q] = [0] := rfl

set_option maxHeartbeats 3200000 in
/-- One trial of the seventeen always-crashing competitors: every row is
`Win % = 0`, `DNF % = 100`, no average time, in input order. -/
theorem summaryList_seventeen :
    summaryList cars17 track1 1 constStream 0 = names17.map mk17 := by
  norm_num [summaryList, cars17, names17, mkCar17, mk17, mcTrials, trialStep,
    RaceSimulator.run, simCar, simLoop, mkResult, winPodium, sortedByTime,
    podiumFold, timeDnfStep_fin, timeDnfStep_dnf, bump, pushTime, initAgg,
    randAt, normalAt, lapCrashProb, effectiveSpeed, rawSpeed, tyrePenalty,
    lapsSincePit, pit_stop_time, track1, constStream, List.range',
    summaryRowOk]
  simp +decide

/-- The summary sort on the seventeen tied rows: numpy's quicksort path
(taken because the segment exceeds `SMALL_QUICKSORT = 15`) reorders the
tied block into `outNames17`. -/
theorem sortValues_seventeen :
    sortValuesWinDesc (names17.map mk17) = outNames17.map mk17 := by decide

/-- C3.  For a nonempty competitor list and a positive trial count the
aggregator returns the `sort_values` reordering of the per-car summary
rows, which are one row per car in input order.  Whenever there are at
most sixteen competitors — the sizes on which numpy's default sort is its
stable insertion sort — the table is sorted by descending `Win %`, is a
permutation of the input rows, and rows of equal `Win %` keep their input
order (the filter at every `Win %` value is unchanged by the sort).  At
seventeen or more competitors the unstable quicksort path can reorder tied
rows, so tie stability fails in general. -/
theorem C3_sorted_stable (cars : List Car) (track : Track) (n : ℕ)
    (s : RandStream) (p : ℕ) (hc : cars ≠ []) (hn : 1 ≤ n) :
    MonteCarloRace.run cars track n s p =
        Except.ok (sortValuesWinDesc (summaryList cars track n s p)) ∧
      (summaryList cars track n s p).map SummaryRow.car = cars.map Car.name ∧
      (cars.length ≤ 16 →
        List.Sorted (fun a b => b.win_pct ≤ a.win_pct)
          (sortValuesWinDesc (summaryList cars track n s p)) ∧
        (sortValuesWinDesc (summaryList cars track n s p)).Perm
          (summaryList cars track n s p) ∧
        ∀ w : ℚ,
          (sortValuesWinDesc (summaryList cars track n s p)).filter
              (fun r => decide (r.win_pct = w)) =
            (summaryList cars track n s p).filter
              (fun r => decide (r.win_pct = w))) := by
  have hn0 : n ≠ 0 := by omega
  refine ⟨?_, ?_, ?_⟩
  · simp only [MonteCarloRace.run,
      mapM_summaryRow n ((mcTrials cars track s n initAgg p).1) hn0 cars]
    have hne : (cars.map
        (summaryRowOk n (mcTrials cars track s n initAgg p).1)).isEmpty
        = false := by
      cases cars with
      | nil => exact absurd rfl hc
      | cons c cs => rfl
    simp [hne, summaryList]
  · simp [summaryList, summaryRowOk]
  · intro h16
    have hlen : (summaryList cars track n s p).length ≤ 16 := by
      simpa [summaryList] using h16
    have hs := sortValues_small (summaryList cars track n s p) hlen
    refine ⟨?_, ?_, ?_⟩
    · rw [hs]
      have hsor := List.sorted_insertionSort
        (fun (a b : SummaryRow) => a.win_pct ≤ b.win_pct)
        (summaryList cars track n s p).reverse
      exact List.pairwise_reverse.mpr (by simpa using hsor)
    · rw [hs]
      exact ((List.reverse_perm _).trans
        (List.perm_insertionSort _ _)).trans (List.reverse_perm _)
    · intro w
      rw [hs, List.filter_reverse, filter_insertionSort_win,
        List.filter_reverse, List.reverse_reverse]

/-- C3, witness at a concrete input: one car, one trial — a one-row table,
within the stable small-sort range. -/
theorem C3_witness :
    ([carNoisy] : List Car) ≠ [] ∧ (1 : ℕ) ≤ 1 ∧
      ([carNoisy] : List Car).length ≤ 16 ∧
      MonteCarloRace.run [carNoisy] track1 1 constStream 0 =
        Except.ok
          (sortValuesWinDesc (summaryList [carNoisy] track1 1 constStream 0)) ∧
      (sortValuesWinDesc (summaryList [carNoisy] track1 1 constStream 0)).filter
          (fun r => decide (r.win_pct = 100)) =
        (summaryList [carNoisy] track1 1 constStream 0).filter
          (fun r => decide (r.win_pct = 100)) :=
  ⟨by simp, le_refl 1, by simp,
    (C3_sorted_stable [carNoisy] track1 1 constStream 0 (by simp) (le_refl 1)).1,
    ((C3_sorted_stable [carNoisy] track1 1 constStream 0 (by simp)
      (le_refl 1)).2.2 (by simp)).2.2 100⟩

/-- C3, counterexample to tie stability at seventeen competitors: all
seventeen summary rows are tied at `Win % = 0`, yet the returned table
lists them in the order `outNames17`, which differs from the input order
`names17` — the unstable quicksort path taken beyond sixteen rows reorders
tied rows. -/
theorem C3_counterexample :
    MonteCarloRace.run cars17 track1 1 constStream 0 =
        Except.ok (outNames17.map mk17) ∧
      (summaryList cars17 track1 1 constStream 0).map SummaryRow.car =
        names17 ∧
      (summaryList cars17 track1 1 constStream 0).map SummaryRow.win_pct =
        List.replicate 17 0 ∧
      (outNames17.map mk17).map SummaryRow.car = outNames17 ∧
      outNames17 ≠ names17 := by
  have hrun : MonteCarloRace.run cars17 track1 1 constStream 0 =
      Except.ok
        (sortValuesWinDesc (summaryList cars17 track1 1 constStream 0)) := by
    simp only [MonteCarloRace.run,
      mapM_summaryRow 1 ((mcTrials cars17 track1 constStream 1 initAgg 0).1)
        one_ne_zero cars17]
    have hne : (cars17.map
        (summaryRowOk 1 (mcTrials cars17 track1 constStream 1 initAgg 0).1)).isEmpty
        = false := by
      simp [cars17, names17]
    simp [hne, summaryList]
  refine ⟨?_, ?_, ?_, ?_, ?_⟩
  · rw [hrun, summaryList_seventeen, sortValues_seventeen]
  · rw [summaryList_seventeen]
    decide
  · rw [summaryList_seventeen]
    decide
  · decide
  · decide

/-- C4, counterexample.  Swapping the two competitors changes competitor
`B`'s own outcome: with `A` first, `A`'s crash consumes one draw and `B`'s
speed draw lands on the deviate `100` (lap time `1/2`); with `B` first,
`B`'s speed draw is the deviate `0` (lap time `1`).  Order of evaluation
does affect an individual result. -/
theorem C4_counterexample :
    (RaceSimulator.run [carSureCrash, carNoisy] track1 sOrder 0).1.lookup nmB ≠
      (RaceSimulator.run [carNoisy, carSureCrash] track1 sOrder 0).1.lookup nmB := by
  have h1 : (RaceSimulator.run [carSureCrash, carNoisy] track1 sOrder 0).1.lookup nmB =
      some ⟨some (1 / 2), Status.finished, 1⟩ := by
    norm_num [RaceSimulator.run, simCar, simLoop, mkResult, randAt, normalAt, lapCrashProb,
      effectiveSpeed, rawSpeed, tyrePenalty, lapsSincePit, pit_stop_time,
      carSureCrash, carNoisy, track1, sOrder, nmA, nmB, List.range', List.lookup]
    simp
  have h2 : (RaceSimulator.run [carNoisy, carSureCrash] track1 sOrder 0).1.lookup nmB =
      some ⟨some 1, Status.finished, 1⟩ := by
    norm_num [RaceSimulator.run, simCar, simLoop, mkResult, randAt, normalAt, lapCrashProb,
      effectiveSpeed, rawSpeed, tyrePenalty, lapsSincePit, pit_stop_time,
      carSureCrash, carNoisy, track1, sOrder, nmA, nmB, List.range', List.lookup]
  rw [h1, h2]
  intro h
  have h3 := congrArg (fun r => Option.map CarResult.time r) h
  norm_num at h3

/-- C4, amended.  A competitor's outcome is unchanged by any modification of
the competitors listed after it (the shared stream is consumed left to
right), so only the draws consumed by earlier competitors can shift an
individual result. -/
theorem C4_unaffected_by_later_cars (pre : List Car) (c : Car)
    (rest rest' : List Car) (track : Track) (s : RandStream) (p : ℕ) :
    (RaceSimulator.run (pre ++ c :: rest) track s p).1.get? pre.length =
      (RaceSimulator.run (pre ++ c :: rest') track s p).1.get? pre.length := by
  induction pre generalizing p with
  | nil => simp [RaceSimulator.run]
  | cons a pre ih =>
    simp only [List.cons_append, RaceSimulator.run, List.length_cons, List.get?]
    exact ih _

/-- A DNF produced by the lap loop always names one of the processed laps. -/
theorem simLoop_dnf_mem (car : Car) (track : Track) (s : RandStream) :
    ∀ (laps : List ℕ) (lastPit : ℕ) (total : ℚ) (p k : ℕ) (T : ℚ) (q lp : ℕ),
      simLoop car track s laps lastPit total p = ⟨Status.dnf k, T, q, lp⟩ →
        k ∈ laps := by
  intro laps
  induction laps with
  | nil =>
    intro _ _ _ _ _ _ _ h
    simp [simLoop] at h
  | cons lap rest ih =>
    intro lastPit total p k T q lp h
    simp only [simLoop] at h
    by_cases hc : randAt s p < lapCrashProb car lap
    · rw [if_pos hc] at h
      have hk := congrArg LoopRes.status h
      simp at hk
      simp [hk]
    · rw [if_neg hc] at h
      by_cases hpit : lap ∈ car.pit_laps
      · rw [if_pos hpit] at h
        exact List.mem_cons_of_mem _ (ih _ _ _ k T q lp h)
      · rw [if_neg hpit] at h
        exact List.mem_cons_of_mem _ (ih _ _ _ k T q lp h)

/-- Raising only the crash probability makes the lap loop crash no later on
the same stream: from the same state, a DNF at lap `k` under the lower
probability forces a DNF at some lap `≤ k` under the higher one (the two
runs consume identical draws until the higher-probability run crashes). -/
theorem simLoop_crash_monotone (c : Car) (p1 p2 : ℚ) (track : Track)
    (s : RandStream) (hp : p1 ≤ p2) :
    ∀ (laps : List ℕ) (lastPit : ℕ) (total : ℚ) (p : ℕ),
      List.Pairwise (· < ·) laps →
      ∀ (k : ℕ) (T : ℚ) (q lp : ℕ),
        simLoop {c with crash_prob := p1} track s laps lastPit total p =
          ⟨Status.dnf k, T, q, lp⟩ →
        dnfBy (simLoop {c with crash_prob := p2} track s laps lastPit total p) k
          = true := by
  intro laps
  induction laps with
  | nil =>
    intro _ _ _ _ _ _ _ _ h
    simp [simLoop] at h
  | cons lap rest ih =>
    intro lastPit total p hpw k T q lp h
    have hcp : lapCrashProb {c with crash_prob := p1} lap ≤
        lapCrashProb {c with crash_prob := p2} lap := by
      simp only [lapCrashProb]
      exact add_le_add_right hp _
    by_cases h1 : randAt s p < lapCrashProb {c with crash_prob := p1} lap
    · have h2 : randAt s p < lapCrashProb {c with crash_prob := p2} lap :=
        lt_of_lt_of_le h1 hcp
      simp only [simLoop, if_pos h1] at h
      have hk := congrArg LoopRes.status h
      simp at hk
      simp only [simLoop, if_pos h2, dnfBy]
      simp [hk]
    · simp only [simLoop, if_neg h1] at h
      by_cases h2 : randAt s p < lapCrashProb {c with crash_prob := p2} lap
      · have hk : k ∈ rest := by
          by_cases hpit : lap ∈ c.pit_laps
          · rw [if_pos hpit] at h
            exact simLoop_dnf_mem _ _ _ _ _ _ _ _ _ _ _ h
          · rw [if_neg hpit] at h
            exact simLoop_dnf_mem _ _ _ _ _ _ _ _ _ _ _ h
        have hlt : lap < k := (List.pairwise_cons.mp hpw).1 k hk
        simp only [simLoop, if_pos h2, dnfBy]
        simp [Nat.le_of_lt hlt]
      · simp only [simLoop, if_neg h2]
        by_cases hpit : lap ∈ c.pit_laps
        · rw [if_pos hpit] at h ⊢
          exact ih _ _ _ (List.pairwise_cons.mp hpw).2 k T q lp h
        · rw [if_neg hpit] at h ⊢
          exact ih _ _ _ (List.pairwise_cons.mp hpw).2 k T q lp h

/-- C5, counterexample.  Over three trials of a single two-lap competitor on
one fixed stream, raising `crash_prob` from `3/10` to `3/5` LOWERS the
summary `DNF %` from `200/3` to `100/3` and RAISES the `Win %` from `100/3`
to `200/3`: the earlier crash of the riskier run shifts which draws later
trials consume, so aggregate monotonicity fails on a shared stream. -/
theorem C5_counterexample :
    (3 : ℚ) / 10 < 3 / 5 ∧
    MonteCarloRace.run [carCrash (3/10)] track2 3 sCrash 0 =
      Except.ok [⟨nmX, 100/3, 100/3, 200/3, some 2⟩] ∧
    MonteCarloRace.run [carCrash (3/5)] track2 3 sCrash 0 =
      Except.ok [⟨nmX, 200/3, 200/3, 100/3, some 2⟩] ∧
    (100 : ℚ) / 3 < 200 / 3 := by
  refine ⟨by norm_num, ?_, ?_, by norm_num⟩
  · norm_num [MonteCarloRace.run, mcTrials, trialStep, RaceSimulator.run, simCar, simLoop,
      mkResult, winPodium, sortedByTime, podiumFold, timeDnfStep_fin, timeDnfStep_dnf,
      bump, pushTime, initAgg, randAt, normalAt, lapCrashProb, effectiveSpeed, rawSpeed,
      tyrePenalty, lapsSincePit, pit_stop_time, carCrash, track2, sCrash, nmX, List.range',
      List.mapM, List.mapM.loop, summaryRow, summaryRowOk, sortValuesWinDesc,
      nargsortDesc_singleton, dRow, pure, Except.pure, Bind.bind, Except.bind]
  · norm_num [MonteCarloRace.run, mcTrials, trialStep, RaceSimulator.run, simCar, simLoop,
      mkResult, winPodium, sortedByTime, podiumFold, timeDnfStep_fin, timeDnfStep_dnf,
      bump, pushTime, initAgg, randAt, normalAt, lapCrashProb, effectiveSpeed, rawSpeed,
      tyrePenalty, lapsSincePit, pit_stop_time, carCrash, track2, sCrash, nmX, List.range',
      List.mapM, List.mapM.loop, summaryRow, summaryRowOk, sortValuesWinDesc,
      nargsortDesc_singleton, dRow, pure, Except.pure, Bind.bind, Except.bind]

/-- C5, amended.  The monotonicity that does hold is per race at a fixed
stream position: raising a competitor's `crash_prob` (all else fixed, same
stream, same starting pointer) never turns a single-race DNF at lap `k`
into a finish — the riskier run crashes at some lap `≤ k`. -/
theorem C5_single_race_crash_monotone (c : Car) (p1 p2 : ℚ) (track : Track)
    (s : RandStream) (p : ℕ) (hp : p1 ≤ p2) (k : ℕ) (T : ℚ) (q lp : ℕ)
    (h : simCar {c with crash_prob := p1} track s p = ⟨Status.dnf k, T, q, lp⟩) :
    dnfBy (simCar {c with crash_prob := p2} track s p) k = true :=
  simLoop_crash_monotone c p1 p2 track s hp _ 0 0 p
    (List.pairwise_lt_range' 1 track.n_laps) k T q lp h

/-- C5, amended, witness at a concrete input. -/
theorem C5_witness :
    (3 : ℚ) / 4 ≤ 1 ∧
    simCar {carNoisy with crash_prob := 3/4} track1 constStream 0 =
      ⟨Status.dnf 1, 0, 1, 0⟩ ∧
    dnfBy (simCar {carNoisy with crash_prob := 1} track1 constStream 0) 1 = true := by
  have h : simCar {carNoisy with crash_prob := 3/4} track1 constStream 0 =
      ⟨Status.dnf 1, 0, 1, 0⟩ := by
    norm_num [simCar, simLoop, randAt, lapCrashProb, carNoisy, constStream, track1,
      List.range']
  exact ⟨by norm_num, h,
    C5_single_race_crash_monotone carNoisy (3/4) 1 track1 constStream 0 (by norm_num)
      1 0 1 0 h⟩

/-- The lap loop reads the track only through `lap_length` and
`weather_variance`: the `n_laps` field is irrelevant once the lap list is
fixed. -/
theorem simLoop_track_irrel (car : Car) (s : RandStream) (L w : ℚ) (n1 n2 : ℕ) :
    ∀ (laps : List ℕ) (lastPit : ℕ) (total : ℚ) (p : ℕ),
      simLoop car ⟨L, n1, w⟩ s laps lastPit total p =
        simLoop car ⟨L, n2, w⟩ s laps lastPit total p := by
  intro laps
  induction laps with
  | nil => intro _ _ _; rfl
  | cons lap rest ih =>
    intro lastPit total p
    simp only [simLoop]
    by_cases hc : randAt s p < lapCrashProb car lap
    · rw [if_pos hc, if_pos hc]
    · rw [if_neg hc, if_neg hc]
      by_cases hpit : lap ∈ car.pit_laps
      · rw [if_pos hpit, if_pos hpit]
        exact ih _ _ _
      · rw [if_neg hpit, if_neg hpit]
        exact ih _ _ _

/-- Splitting the lap list: when the first segment finishes, the loop
continues into the second segment from the reached state. -/
theorem simLoop_append_fin (car : Car) (track : Track) (s : RandStream) :
    ∀ (l1 l2 : List ℕ) (lastPit : ℕ) (total : ℚ) (p : ℕ) (T : ℚ) (q lp : ℕ),
      simLoop car track s l1 lastPit total p = ⟨Status.finished, T, q, lp⟩ →
      simLoop car track s (l1 ++ l2) lastPit total p =
        simLoop car track s l2 lp T q := by
  intro l1
  induction l1 with
  | nil =>
    intro l2 lastPit total p T q lp h
    simp only [simLoop] at h
    have h1 := congrArg LoopRes.total_time h
    have h2 := congrArg LoopRes.ptr h
    have h3 := congrArg LoopRes.last_pit h
    simp at h1 h2 h3
    simp [h1, h2, h3]
  | cons lap rest ih =>
    intro l2 lastPit total p T q lp h
    simp only [simLoop] at h ⊢
    by_cases hc : randAt s p < lapCrashProb car lap
    · rw [if_pos hc] at h
      exact absurd (congrArg LoopRes.status h) (by simp)
    · rw [if_neg hc] at h ⊢
      by_cases hpit : lap ∈ car.pit_laps
      · rw [if_pos hpit] at h ⊢
        exact ih _ _ _ _ T q lp h
      · rw [if_neg hpit] at h ⊢
        exact ih _ _ _ _ T q lp h

/-- Splitting the lap list: a DNF inside the first segment ends the whole
loop there, with no contribution from the second segment. -/
theorem simLoop_append_dnf (car : Car) (track : Track) (s : RandStream) :
    ∀ (l1 l2 : List ℕ) (lastPit : ℕ) (total : ℚ) (p k : ℕ) (T : ℚ) (q lp : ℕ),
      simLoop car track s l1 lastPit total p = ⟨Status.dnf k, T, q, lp⟩ →
      simLoop car track s (l1 ++ l2) lastPit total p = ⟨Status.dnf k, T, q, lp⟩ := by
  intro l1
  induction l1 with
  | nil =>
    intro l2 lastPit total p k T q lp h
    simp [simLoop] at h
  | cons lap rest ih =>
    intro l2 lastPit total p k T q lp h
    simp only [simLoop] at h ⊢
    by_cases hc : randAt s p < lapCrashProb car lap
    · rw [if_pos hc] at h ⊢
      exact h
    · rw [if_neg hc] at h ⊢
      by_cases hpit : lap ∈ car.pit_laps
      · rw [if_pos hpit] at h ⊢
        exact ih _ _ _ _ k T q lp h
      · rw [if_neg hpit] at h ⊢
        exact ih _ _ _ _ k T q lp h

/-- C6.  A finished outcome reports exactly `n_laps` completed laps; a DNF
at lap `k` reports `k` laps with `1 ≤ k ≤ n_laps`, and the run is the
`k - 1`-lap run plus the single crash draw: same accumulated time (no lap
time and no pit time from the crash lap) and exactly one more consumed
draw (no later lap evaluated). -/
theorem C6_laps_reported (car : Car) (track : Track) (s : RandStream) (p : ℕ) :
    ((simCar car track s p).status = Status.finished →
      (mkResult track (simCar car track s p)).laps = track.n_laps) ∧
    (∀ k, (simCar car track s p).status = Status.dnf k →
      (mkResult track (simCar car track s p)).laps = k ∧
      1 ≤ k ∧ k ≤ track.n_laps ∧
      simCar car ⟨track.lap_length, k - 1, track.weather_variance⟩ s p =
        ⟨Status.finished, (simCar car track s p).total_time,
          (simCar car track s p).ptr - 1, (simCar car track s p).last_pit⟩) := by
  constructor
  · intro h
    simp [mkResult, h]
  · intro k hk
    have hr : simLoop car track s (List.range' 1 track.n_laps) 0 0 p =
        ⟨Status.dnf k, (simCar car track s p).total_time,
         (simCar car track s p).ptr, (simCar car track s p).last_pit⟩ := by
      rw [← hk]
      rfl
    have hkmem : k ∈ List.range' 1 track.n_laps :=
      simLoop_dnf_mem car track s _ _ _ _ _ _ _ _ hr
    have hk1n : 1 ≤ k ∧ k ≤ track.n_laps := by
      rcases List.mem_range'.mp hkmem with ⟨i, hi, hki⟩
      omega
    refine ⟨by simp [mkResult, hk], hk1n.1, hk1n.2, ?_⟩
    have hsplit : List.range' 1 (k-1) ++ List.range' k (track.n_laps - k + 1) =
        List.range' 1 track.n_laps := by
      have h := List.range'_append 1 (k-1) (track.n_laps - k + 1) 1
      have e1 : 1 + 1 * (k-1) = k := by omega
      have e2 : track.n_laps - k + 1 + (k-1) = track.n_laps := by omega
      rw [e1, e2] at h
      exact h
    rcases hstat : simLoop car track s (List.range' 1 (k-1)) 0 0 p with ⟨st, T1, q1, lp1⟩
    cases st with
    | dnf j =>
      have hw := simLoop_append_dnf car track s (List.range' 1 (k-1))
        (List.range' k (track.n_laps - k + 1)) 0 0 p j T1 q1 lp1 hstat
      rw [hsplit, hr] at hw
      have hj := congrArg LoopRes.status hw
      simp at hj
      have hjmem : j ∈ List.range' 1 (k-1) :=
        simLoop_dnf_mem car track s _ _ _ _ _ _ _ _ hstat
      rcases List.mem_range'.mp hjmem with ⟨i, hi, hji⟩
      omega
    | finished =>
      have hw := simLoop_append_fin car track s (List.range' 1 (k-1))
        (List.range' k (track.n_laps - k + 1)) 0 0 p T1 q1 lp1 hstat
      rw [hsplit, hr] at hw
      have hm : track.n_laps - k + 1 = (track.n_laps - k) + 1 := rfl
      rw [hm, List.range'_succ k (track.n_laps - k) 1] at hw
      simp only [simLoop] at hw
      by_cases hc : randAt s q1 < lapCrashProb car k
      · rw [if_pos hc] at hw
        have hT := congrArg LoopRes.total_time hw
        have hq := congrArg LoopRes.ptr hw
        have hlp := congrArg LoopRes.last_pit hw
        simp at hT hq hlp
        have htr : simCar car ⟨track.lap_length, k - 1, track.weather_variance⟩ s p =
            simLoop car track s (List.range' 1 (k-1)) 0 0 p := by
          show simLoop car ⟨track.lap_length, k - 1, track.weather_variance⟩ s
              (List.range' 1 (k-1)) 0 0 p = _
          rw [simLoop_track_irrel car s track.lap_length track.weather_variance
            (k-1) track.n_laps (List.range' 1 (k-1)) 0 0 p]
        rw [htr, hstat, hT, hlp, hq]
        simp
      · rw [if_neg hc] at hw
        have hkm : k ∈ List.range' (k+1) (track.n_laps - k) := by
          by_cases hpit : k ∈ car.pit_laps
          · rw [if_pos hpit] at hw
            exact simLoop_dnf_mem car track s _ _ _ _ _ _ _ _ hw.symm
          · rw [if_neg hpit] at hw
            exact simLoop_dnf_mem car track s _ _ _ _ _ _ _ _ hw.symm
        rcases List.mem_range'.mp hkm with ⟨i, hi, hki⟩
        omega

/-- C6, witness at a concrete input: a certain crash on the first of two
laps. -/
theorem C6_witness :
    (simCar carSureCrash track2 constStream 0).status = Status.dnf 1 ∧
    ((mkResult track2 (simCar carSureCrash track2 constStream 0)).laps = 1 ∧
      1 ≤ 1 ∧ 1 ≤ track2.n_laps ∧
      simCar carSureCrash ⟨track2.lap_length, 1 - 1, track2.weather_variance⟩
          constStream 0 =
        ⟨Status.finished, (simCar carSureCrash track2 constStream 0).total_time,
          (simCar carSureCrash track2 constStream 0).ptr - 1,
          (simCar carSureCrash track2 constStream 0).last_pit⟩) := by
  have h : (simCar carSureCrash track2 constStream 0).status = Status.dnf 1 := by
    norm_num [simCar, simLoop, randAt, lapCrashProb, carSureCrash, constStream, track2,
      List.range']
  exact ⟨h, (C6_laps_reported carSureCrash track2 constStream 0).2 1 h⟩

/-- With no crash risk, no variance, no decay, no boosts, no pits and no
weather, every lap of a `constCar` takes exactly `lap_length / base_speed`
and consumes exactly three draws. -/
theorem simLoop_constCar (nm : String) (v : ℚ) (hv : 1/1000 ≤ v) (track : Track)
    (hw : track.weather_variance = 0) (s : RandStream) :
    ∀ (laps : List ℕ) (lastPit : ℕ) (total : ℚ) (p : ℕ),
      simLoop (constCar nm v) track s laps lastPit total p =
        ⟨Status.finished, total + laps.length * (track.lap_length / v),
          p + 3 * laps.length, lastPit⟩ := by
  intro laps
  induction laps with
  | nil => intro lastPit total p; simp [simLoop]
  | cons lap rest ih =>
    intro lastPit total p
    have hnc : ¬ randAt s p < lapCrashProb (constCar nm v) lap := by
      simp [lapCrashProb, constCar]
      exact (s.u p).property.1
    have hes : effectiveSpeed (constCar nm v) track lap lastPit s (p+1) = v := by
      simp [effectiveSpeed, rawSpeed, normalAt, tyrePenalty, constCar, hw]
      linarith [hv]
    simp only [simLoop, if_neg hnc, hes]
    have hpit : ¬ lap ∈ (constCar nm v).pit_laps := by simp [constCar]
    rw [if_neg hpit, ih]
    have e1 : total + track.lap_length / v + rest.length * (track.lap_length / v) =
        total + (rest.length + 1) * (track.lap_length / v) := by ring
    have e2 : p + 1 + 2 + 3 * rest.length = p + 3 * (rest.length + 1) := by ring
    simp [e1, e2]

/-- C7.  Two deterministic competitors (`A` at base speed `100`, `B` at
`50`, no crash, pit, decay, boost or weather sources) over one trial on any
positive-length circuit: `A`'s win count is `1`, `B`'s is `0`, and `A`'s
collected finish time is exactly `n_laps * lap_length / 100`. -/
theorem C7_two_car_deterministic (L : ℚ) (n : ℕ) (s : RandStream) (p : ℕ)
    (hL : 0 < L) (_hn : 1 ≤ n) :
    (mcTrials [constCar nmA 100, constCar nmB 50] ⟨L, n, 0⟩ s 1 initAgg p).1.winner_counts
        nmA = 1 ∧
    (mcTrials [constCar nmA 100, constCar nmB 50] ⟨L, n, 0⟩ s 1 initAgg p).1.finish_times
        nmA = [n * L / 100] ∧
    (mcTrials [constCar nmA 100, constCar nmB 50] ⟨L, n, 0⟩ s 1 initAgg p).1.winner_counts
        nmB = 0 := by
  have hA : simCar (constCar nmA 100) ⟨L, n, 0⟩ s p =
      ⟨Status.finished, ↑n * (L/100), p + 3*n, 0⟩ := by
    have h := simLoop_constCar nmA 100 (by norm_num) ⟨L, n, 0⟩ rfl s
      (List.range' 1 n) 0 0 p
    simp [List.length_range'] at h
    exact h
  have hB : simCar (constCar nmB 50) ⟨L, n, 0⟩ s (p + 3*n) =
      ⟨Status.finished, ↑n * (L/50), p + 3*n + 3*n, 0⟩ := by
    have h := simLoop_constCar nmB 50 (by norm_num) ⟨L, n, 0⟩ rfl s
      (List.range' 1 n) 0 0 (p + 3*n)
    simp [List.length_range'] at h
    exact h
  have hrun : RaceSimulator.run [constCar nmA 100, constCar nmB 50] ⟨L, n, 0⟩ s p =
      ([(nmA, ⟨some (↑n * (L/100)), Status.finished, n⟩),
        (nmB, ⟨some (↑n * (L/50)), Status.finished, n⟩)], p + 3*n + 3*n) := by
    have hnA : (constCar nmA 100).name = nmA := rfl
    have hnB : (constCar nmB 50).name = nmB := rfl
    simp [RaceSimulator.run, hA, hB, mkResult, hnA, hnB]
  have hle : (n:ℚ) * (L/100) ≤ ↑n * (L/50) := by
    have h1 : L/100 ≤ L/50 := by linarith
    exact mul_le_mul_of_nonneg_left h1 (Nat.cast_nonneg n)
  have hne1 : nmA ≠ nmB := by decide
  have hne2 : nmB ≠ nmA := by decide
  refine ⟨?_, ?_, ?_⟩ <;>
    simp [mcTrials, trialStep, hrun, winPodium, sortedByTime, List.insertionSort,
      List.orderedInsert, podiumFold, timeDnfStep_fin, bump, pushTime, initAgg,
      hle, hne1, hne2, mul_div_assoc]

/-- C7, witness at a concrete input (`lap_length = 200`, `n_laps = 3`). -/
theorem C7_witness :
    (0 : ℚ) < 200 ∧ (1 : ℕ) ≤ 3 ∧
    ((mcTrials [constCar nmA 100, constCar nmB 50] ⟨200, 3, 0⟩ constStream 1 initAgg
        0).1.winner_counts nmA = 1 ∧
      (mcTrials [constCar nmA 100, constCar nmB 50] ⟨200, 3, 0⟩ constStream 1 initAgg
        0).1.finish_times nmA = [((3 : ℕ) : ℚ) * 200 / 100] ∧
      (mcTrials [constCar nmA 100, constCar nmB 50] ⟨200, 3, 0⟩ constStream 1 initAgg
        0).1.winner_counts nmB = 0) :=
  ⟨by norm_num, by norm_num,
    C7_two_car_deterministic 200 3 constStream 0 (by norm_num) (by norm_num)⟩

/-- C8.  After a surviving pit lap `L` the loop state carries
`last_pit_lap = L`, so at lap `L + 1` the degradation counter
`laps_since_pit = (L+1) - L - 1` is `0` and the tyre penalty vanishes; in
general `laps_since_pit` is current lap minus last pit lap minus one and
grows by exactly one per lap until the next pit. -/
theorem C8_pit_resets_tyre (car : Car) (track : Track) (s : RandStream)
    (L : ℕ) (rest : List ℕ) (lastPit : ℕ) (total : ℚ) (p : ℕ)
    (hnc : ¬ randAt s p < lapCrashProb car L) (hpit : L ∈ car.pit_laps) :
    simLoop car track s (L :: rest) lastPit total p =
      simLoop car track s rest L
        (total + track.lap_length / effectiveSpeed car track L lastPit s (p + 1)
          + pit_stop_time car s (p + 3)) (p + 4) ∧
    lapsSincePit (L + 1) L = 0 ∧
    tyrePenalty car (L + 1) L = 0 ∧
    (∀ m q : ℕ, lapsSincePit (m + 1) q = lapsSincePit m q + 1) := by
  refine ⟨?_, ?_, ?_, ?_⟩
  · simp only [simLoop, if_neg hnc, if_pos hpit]
  · simp only [lapsSincePit]
    push_cast
    ring
  · simp only [tyrePenalty, lapsSincePit]
    push_cast
    ring
  · intro m q
    simp only [lapsSincePit]
    push_cast
    ring

/-- C8, witness at a concrete input: a pit stop at the end of lap `1`. -/
theorem C8_witness :
    ¬ randAt constStream 0 < lapCrashProb pitCar 1 ∧
    (1 ∈ pitCar.pit_laps) ∧
    (simLoop pitCar track2 constStream [1, 2] 0 0 0 =
      simLoop pitCar track2 constStream [2] 1
        (0 + track2.lap_length / effectiveSpeed pitCar track2 1 0 constStream 1
          + pit_stop_time pitCar constStream 3) 4 ∧
      lapsSincePit 2 1 = 0 ∧
      tyrePenalty pitCar 2 1 = 0 ∧
      (∀ m q : ℕ, lapsSincePit (m + 1) q = lapsSincePit m q + 1)) := by
  have h1 : ¬ randAt constStream 0 < lapCrashProb pitCar 1 := by
    norm_num [randAt, constStream, lapCrashProb, pitCar]
  have h2 : 1 ∈ pitCar.pit_laps := by
    simp [pitCar]
  exact ⟨h1, h2, C8_pit_resets_tyre pitCar track2 constStream 1 [2] 0 0 0 h1 h2⟩

/-- C9.  The effective speed is clamped to the positive floor `1/1000`
before it is used, so it is never zero or negative, and on every surviving
lap the time added is `lap_length` divided by exactly that clamped speed —
a non-positive raw speed is absorbed by the clamp, never raised as an
error. -/
theorem C9_speed_floor_clamped (car : Car) (track : Track) (s : RandStream)
    (lap last_pit : ℕ) (p : ℕ) :
    (1 : ℚ)/1000 ≤ effectiveSpeed car track lap last_pit s p ∧
    0 < effectiveSpeed car track lap last_pit s p ∧
    (∀ (rest : List ℕ) (total : ℚ) (q : ℕ),
      ¬ randAt s q < lapCrashProb car lap →
      simLoop car track s (lap :: rest) last_pit total q =
        (if lap ∈ car.pit_laps then
          simLoop car track s rest lap
            (total + track.lap_length / effectiveSpeed car track lap last_pit s (q + 1)
              + pit_stop_time car s (q + 3)) (q + 4)
        else
          simLoop car track s rest last_pit
            (total + track.lap_length / effectiveSpeed car track lap last_pit s (q + 1))
            (q + 3))) := by
  refine ⟨le_max_right _ _, lt_of_lt_of_le (by norm_num) (le_max_right _ _), ?_⟩
  intro rest total q hq
  simp only [simLoop, if_neg hq]

/-- C9, witness at a concrete input. -/
theorem C9_witness :
    ((1 : ℚ)/1000 ≤ effectiveSpeed carNoisy track1 1 0 constStream 1 ∧
      0 < effectiveSpeed carNoisy track1 1 0 constStream 1) ∧
    ¬ randAt constStream 0 < lapCrashProb carNoisy 1 ∧
    simLoop carNoisy track1 constStream [1] 0 0 0 =
      (if 1 ∈ carNoisy.pit_laps then
        simLoop carNoisy track1 constStream [] 1
          (0 + track1.lap_length / effectiveSpeed carNoisy track1 1 0 constStream 1
            + pit_stop_time carNoisy constStream 3) 4
      else
        simLoop carNoisy track1 constStream [] 0
          (0 + track1.lap_length / effectiveSpeed carNoisy track1 1 0 constStream 1)
          3) := by
  have h0 : ¬ randAt constStream 0 < lapCrashProb carNoisy 1 := by
    norm_num [randAt, constStream, lapCrashProb, carNoisy]
  refine ⟨⟨(C9_speed_floor_clamped carNoisy track1 constStream 1 0 1).1,
    (C9_speed_floor_clamped carNoisy track1 constStream 1 0 1).2.1⟩, h0,
    (C9_speed_floor_clamped carNoisy track1 constStream 1 0 0).2.2 [] 0 0 h0⟩

/-- The time/DNF fold touches only the `finish_times` and `dnfs` dicts:
win and podium counts pass through untouched. -/
theorem timeDnf_foldl_counts (l : List (String × CarResult)) :
    ∀ agg : Agg,
      (l.foldl timeDnfStep agg).winner_counts = agg.winner_counts ∧
      (l.foldl timeDnfStep agg).podium_counts = agg.podium_counts := by
  induction l with
  | nil => intro agg; exact ⟨rfl, rfl⟩
  | cons kv t ih =>
    intro agg
    have h : (timeDnfStep agg kv).winner_counts = agg.winner_counts ∧
        (timeDnfStep agg kv).podium_counts = agg.podium_counts := by
      by_cases hs : kv.2.status = Status.finished <;> simp [timeDnfStep, hs]
    rw [List.foldl_cons]
    rcases ih (timeDnfStep agg kv) with ⟨h1, h2⟩
    rw [h1, h2, h.1, h.2]
    exact ⟨rfl, rfl⟩

/-- The podium fold leaves win counts alone and adds to each name's podium
count exactly its number of occurrences in the folded list. -/
theorem podiumFold_counts (l : List (String × CarResult)) :
    ∀ (agg : Agg) (nm : String),
      (podiumFold l agg).winner_counts = agg.winner_counts ∧
      (podiumFold l agg).podium_counts nm =
        agg.podium_counts nm + (l.map Prod.fst).count nm := by
  induction l with
  | nil => intro agg nm; exact ⟨rfl, by simp [podiumFold]⟩
  | cons kv t ih =>
    intro agg nm
    have hstep : podiumFold (kv :: t) agg =
        podiumFold t {agg with podium_counts := bump agg.podium_counts kv.1} := rfl
    rw [hstep]
    rcases ih {agg with podium_counts := bump agg.podium_counts kv.1} nm with ⟨h1, h2⟩
    refine ⟨h1, ?_⟩
    rw [h2]
    simp only [bump, List.map_cons, List.count_cons]
    by_cases hnm : nm = kv.1
    · simp [hnm]
      omega
    · have : ¬ (kv.1 = nm) := fun hh => hnm hh.symm
      simp [hnm, this]

/-- One trial's win/podium accounting preserves `wins ≤ podiums` for every
name: the winner is the head of the top-three list, so its podium count is
incremented whenever its win count is. -/
theorem winPodium_invariant (res : List (String × CarResult)) (agg : Agg)
    (h : ∀ nm, agg.winner_counts nm ≤ agg.podium_counts nm) :
    ∀ nm, (winPodium res agg).winner_counts nm ≤
      (winPodium res agg).podium_counts nm := by
  intro nm
  unfold winPodium
  cases hs : sortedByTime (res.filter (fun kv => kv.2.status == Status.finished)) with
  | nil =>
    simp only [hs]
    exact h nm
  | cons w tl =>
    simp only [hs]
    rcases podiumFold_counts ((w :: tl).take 3)
      {agg with winner_counts := bump agg.winner_counts w.1} nm with ⟨h1, h2⟩
    rw [h1, h2]
    simp only [bump]
    have hcount : 1 ≤ (((w :: tl).take 3).map Prod.fst).count w.1 := by
      have : (w :: tl).take 3 = w :: tl.take 2 := rfl
      rw [this]
      simp [List.count_cons]
    by_cases hnm : nm = w.1
    · rw [if_pos hnm, hnm]
      have := h w.1
      omega
    · rw [if_neg hnm]
      have := h nm
      omega

/-- A full trial preserves `wins ≤ podiums` for every name. -/
theorem trialStep_invariant (cars : List Car) (track : Track) (s : RandStream)
    (agg : Agg) (p : ℕ)
    (h : ∀ nm, agg.winner_counts nm ≤ agg.podium_counts nm) :
    ∀ nm, (trialStep cars track s agg p).1.winner_counts nm ≤
      (trialStep cars track s agg p).1.podium_counts nm := by
  intro nm
  unfold trialStep
  rcases timeDnf_foldl_counts (RaceSimulator.run cars track s p).1
    (winPodium (RaceSimulator.run cars track s p).1 agg) with ⟨h1, h2⟩
  simp only [h1, h2]
  exact winPodium_invariant _ agg h nm

/-- The invariant `wins ≤ podiums` survives any number of trials. -/
theorem mcTrials_invariant (cars : List Car) (track : Track) (s : RandStream) :
    ∀ (n : ℕ) (agg : Agg) (p : ℕ),
      (∀ nm, agg.winner_counts nm ≤ agg.podium_counts nm) →
      ∀ nm, (mcTrials cars track s n agg p).1.winner_counts nm ≤
        (mcTrials cars track s n agg p).1.podium_counts nm := by
  intro n
  induction n with
  | zero => intro agg p h nm; exact h nm
  | succ m ih =>
    intro agg p h nm
    simp only [mcTrials]
    exact ih _ _ (trialStep_invariant cars track s agg p h) nm

/-- C10.  After any number of Monte Carlo trials from the zero accumulators,
every competitor's podium count is at least its win count: the trial winner
heads the `order[:3]` podium list, so every win increment comes with a
podium increment. -/
theorem C10_podium_ge_wins (cars : List Car) (track : Track) (s : RandStream)
    (n : ℕ) (p : ℕ) (nm : String) :
    (mcTrials cars track s n initAgg p).1.winner_counts nm ≤
      (mcTrials cars track s n initAgg p).1.podium_counts nm :=
  mcTrials_invariant cars track s n initAgg p (fun _ => le_refl 0) nm
